import Mathlib

/-!
Verification of the invoice-detector core (`src/Main.py`) against its
natural-language specification.

The Python function `es_factura_logic` joins a list of extracted text
fragments with spaces, lower-cases the result, gates on six mandatory
phrases (plain substring containment), scores nineteen optional phrases
plus three regular expressions, and returns `score >= 5`.

Strings are embedded as `List Char`.  The three regular expressions
(`patron_cuit`, `patron_fecha`, `patron_importe`) are embedded as
nondeterministic prefix matchers (`cuitEnds`, `fechaEnds`, `importeEnds`)
returning every suffix left after consuming a match of the pattern core,
combined with an explicit model of `re.search` word-boundary semantics
(`reSearch`).  The FastAPI handler `analizar_pdf` is embedded as a pure
function of the declared content type and of the outcome that reading and
extracting the uploaded bytes would produce.
-/

namespace FacturaDetector

/-- Shorthand turning a Lean string literal into the `List Char` embedding. -/
def lit (s : String) : List Char := s.data

/-- Python `str.lower()` on a single character, for the ASCII and
Latin-1 ranges (the only ranges the lexicon and the analysed corpora use):
`A`-`Z` and the accented uppercase letters `À`-`Þ` (except `×`, the
multiplication sign) map down by 32 code points; everything else is fixed. -/
def pyToLower (c : Char) : Char :=
  if 'A' ≤ c ∧ c ≤ 'Z' then Char.ofNat (c.toNat + 32)
  else if 'À' ≤ c ∧ c ≤ 'Þ' ∧ c ≠ '×' then Char.ofNat (c.toNat + 32)
  else c

/-- Python `str.lower()` on a whole string. -/
def pyLower (t : List Char) : List Char := t.map pyToLower

/-- Python `" ".join(texto_list)`: the fragments joined with a single
space between consecutive fragments. -/
def joinSpace : List (List Char) → List Char
  | [] => []
  | [x] => x
  | x :: y :: ys => x ++ ' ' :: joinSpace (y :: ys)

/-- Does `p` start the text `t`?  (Both already lower-cased.) -/
def leadsWith : List Char → List Char → Bool
  | [], _ => true
  | _ :: _, [] => false
  | a :: p, b :: t => a == b && leadsWith p t

/-- Python `p in t`: substring containment, scanning every start. -/
def hasSub (p t : List Char) : Bool :=
  leadsWith p t ||
    match t with
    | [] => false
    | _ :: rest => hasSub p rest

/-- `p` occurs as a contiguous substring of `t` (the propositional reading
of Python's `p in t`). -/
def Occurs (p t : List Char) : Prop := ∃ u v, u ++ p ++ v = t

/-- `src/Main.py` line 38: the six mandatory phrases. -/
def palabras_clave_obligatorias : List (List Char) :=
  [lit "factura", lit "recibo", lit "ticket", lit "nota de crédito",
   lit "nota de débito", lit "comprobante"]

/-- `src/Main.py` line 41: the nineteen optional phrases. -/
def palabras_clave_opcionales : List (List Char) :=
  [lit "fecha de emisión", lit "período facturado", lit "fecha de vto.",
   lit "condición de venta", lit "condición frente al iva",
   lit "apellido y nombre", lit "razón social", lit "domicilio", lit "cuit",
   lit "ingresos brutos", lit "producto / servicio", lit "cantidad",
   lit "precio unit.", lit "subtotal", lit "importe total", lit "cae n°",
   lit "comprobante nro", lit "n°", lit "total"]

/-! ### Regular-expression model

Python `re.search(pat, texto)` succeeds iff some start position admits a
match.  All three patterns begin and end with `\d` and are wrapped in
`\b...\b`, so a match starts at a position whose predecessor is not a word
character (or at the string start) and the character right after the match,
if any, is not a word character. -/

/-- A decimal digit (`\d` over the corpora in play). -/
def digit (c : Char) : Bool := '0'.toNat ≤ c.toNat && c.toNat ≤ '9'.toNat

/-- Python `\s` (whitespace class), for the ASCII and Latin-1 ranges. -/
def isSpaceChar (c : Char) : Bool :=
  c == ' ' || c == '\t' || c == '\n' || c == '\r' ||
  c == '\x0b' || c == '\x0c' || c == '\x1c' || c == '\x1d' ||
  c == '\x1e' || c == '\x1f' || c == '\x85' || c == '\xa0'

/-- The character class `[-.\s]` of `patron_cuit`. -/
def isSepChar (c : Char) : Bool := c == '-' || c == '.' || isSpaceChar c

/-- Python `\w` (word character), for the ASCII and Latin-1 ranges:
letters, digits, underscore, and the Latin-1 letters (which excludes
`×` and `÷`). -/
def isWordChar (c : Char) : Bool :=
  digit c || ('a'.toNat ≤ c.toNat && c.toNat ≤ 'z'.toNat) ||
  ('A'.toNat ≤ c.toNat && c.toNat ≤ 'Z'.toNat) || c == '_' ||
  ('À'.toNat ≤ c.toNat && c.toNat ≤ 'ÿ'.toNat && !(c == '×') && !(c == '÷'))

/-- Consume exactly `n` digits from the front (`\d{n}`); `none` when the
text is too short or a non-digit intervenes. -/
def takeDigits : Nat → List Char → Option (List Char)
  | 0, l => some l
  | _ + 1, [] => none
  | n + 1, c :: rest => if digit c then takeDigits n rest else none

/-- `\d{lo,hi}` with existential (backtracking) semantics: every suffix
reachable by consuming between `lo` and `hi` digits. -/
def digitRange (lo hi : Nat) (l : List Char) : List (List Char) :=
  (List.range (hi + 1 - lo)).filterMap (fun k => takeDigits (lo + k) l)

/-- `\d+`: every suffix reachable by consuming at least one digit. -/
def plusDigits : List Char → List (List Char)
  | [] => []
  | c :: rest => if digit c then rest :: plusDigits rest else []

/-- `[-.\s]?`: consume one separator, or nothing. -/
def optSep (l : List Char) : List (List Char) :=
  l :: (match l with
        | c :: rest => if isSepChar c then [rest] else []
        | [] => [])

/-- The slash-or-hyphen character class of `patron_fecha`: consume one
slash or hyphen. -/
def slashDash : List Char → List (List Char)
  | c :: rest => if c == '/' || c == '-' then [rest] else []
  | [] => []

/-- `[,\.]`: consume one comma or dot. -/
def commaDot : List Char → List (List Char)
  | c :: rest => if c == ',' || c == '.' then [rest] else []
  | [] => []

/-- `(?:\.\d{3})*`: every suffix reachable by consuming zero or more
groups of a dot followed by three digits. -/
def starDotGroups : List Char → List (List Char)
  | c :: d1 :: d2 :: d3 :: rest =>
      (c :: d1 :: d2 :: d3 :: rest) ::
        (if c == '.' && digit d1 && digit d2 && digit d3
         then starDotGroups rest else [])
  | l => [l]

/-- Core of `patron_cuit = r'\b\d{2}[-.\s]?\d{8}[-.\s]?\d{1}\b'`
(`src/Main.py` line 48): the suffixes left after a match starting at the
front of `l`. -/
def cuitEnds (l : List Char) : List (List Char) :=
  match takeDigits 2 l with
  | none => []
  | some r1 =>
    (optSep r1).flatMap (fun r2 =>
      match takeDigits 8 r2 with
      | none => []
      | some r3 =>
        (optSep r3).flatMap (fun r4 =>
          match takeDigits 1 r4 with
          | none => []
          | some r5 => [r5]))

/-- Core of `patron_fecha` (`src/Main.py` line 49): 1-2 digits, a slash
or hyphen, 1-2 digits, a slash or hyphen, 2-4 digits, inside word
boundaries. -/
def fechaEnds (l : List Char) : List (List Char) :=
  ((((digitRange 1 2 l).flatMap slashDash).flatMap
      (digitRange 1 2)).flatMap slashDash).flatMap (digitRange 2 4)

/-- Core of `patron_importe = r'\b(?:\d{1,3}(?:\.\d{3})*|\d+)[,\.]\d{2}\b'`
(`src/Main.py` line 50). -/
def importeEnds (l : List Char) : List (List Char) :=
  (((digitRange 1 3 l).flatMap starDotGroups ++ plusDigits l).flatMap
      commaDot).filterMap (takeDigits 2)

/-- The trailing `\b` after a match: the text ends, or the next character
is not a word character (the last matched character is always a digit). -/
def endBoundary : List Char → Bool
  | [] => true
  | c :: _ => !isWordChar c

/-- Does a full match (pattern core plus trailing `\b`) start here? -/
def matchHere (ends : List Char → List (List Char)) (l : List Char) : Bool :=
  (ends l).any endBoundary

/-- Scan of `re.search`: try every start position.  `prevWord` records
whether the previous character is a word character; since every pattern in
play opens with a digit (a word character) after `\b`, a match can only
start where `prevWord` is false. -/
def searchFrom (ends : List Char → List (List Char)) : Bool → List Char → Bool
  | _, [] => false
  | prevWord, c :: rest =>
      (!prevWord && matchHere ends (c :: rest)) ||
        searchFrom ends (isWordChar c) rest

/-- `re.search(pat, texto) is not None`, for a pattern of the form
`\b core \b` with `core` opening and closing on a digit. -/
def reSearch (ends : List Char → List (List Char)) (t : List Char) : Bool :=
  searchFrom ends false t

/-! ### The classifier (`es_factura_logic`, `src/Main.py` lines 25-68) -/

/-- Line 36: `texto = " ".join(texto_list).lower()`. -/
def corpus (texto_list : List (List Char)) : List Char :=
  pyLower (joinSpace texto_list)

/-- Line 53: `any(pk in texto for pk in palabras_clave_obligatorias)`. -/
def obligatoria_presente (texto : List Char) : Bool :=
  palabras_clave_obligatorias.any (fun pk => hasSub pk texto)

/-- Lines 58-65: `sum(1 for pk in palabras_clave_opcionales if pk in texto)`
plus 2 for a `patron_cuit` match, 1 for `patron_fecha`, 1 for
`patron_importe`. -/
def puntuacion (texto : List Char) : Nat :=
  palabras_clave_opcionales.countP (fun pk => hasSub pk texto)
    + (if reSearch cuitEnds texto then 2 else 0)
    + (if reSearch fechaEnds texto then 1 else 0)
    + (if reSearch importeEnds texto then 1 else 0)

/-- `es_factura_logic(texto_list)`, `src/Main.py` lines 25-68. -/
def es_factura_logic (texto_list : List (List Char)) : Bool :=
  let texto := corpus texto_list
  if !obligatoria_presente texto then false
  else decide (5 ≤ puntuacion texto)

/-! ### The HTTP handler (`analizar_pdf`, `src/Main.py` lines 88-130) -/

/-- Outcome of one request, as observed by the client: either the 200
response `{"es_factura": b}` or an HTTP error with status and detail. -/
inductive HttpResult where
  | ok (es_factura : Bool)
  | error (statusCode : Nat) (detail : List Char)
deriving DecidableEq

/-- Detail of the 400 response (`src/Main.py` line 102). -/
def detail_400 : List Char :=
  lit "Tipo de archivo no soportado. Por favor, sube un documento PDF (application/pdf)."

/-- Detail of the 500 response (`src/Main.py` line 129). -/
def detail_500 (e : List Char) : List Char :=
  lit "Ocurrió un error inesperado al procesar el archivo: " ++ e ++
    lit ". Por favor, inténtelo de nuevo o contacte al soporte."

/-- The handler `analizar_pdf`, embedded as a pure function.  Its second
argument packages what reading the uploaded bytes and running the PDF text
extractor over them would produce: either an exception message or the list
of extracted strings.  The handler consults it only after the content-type
check passes. -/
def analizar_pdf (content_type : List Char)
    (extraction : Except (List Char) (List (List Char))) : HttpResult :=
  if content_type ≠ lit "application/pdf" then
    HttpResult.error 400 detail_400
  else
    match extraction with
    | Except.error e => HttpResult.error 500 (detail_500 e)
    | Except.ok texto_extraido => HttpResult.ok (es_factura_logic texto_extraido)

/-! ### Concrete inputs from the specification's examples -/

/-- The specification's positive example. -/
def ejemplo_positivo : List (List Char) :=
  [lit "Factura", lit "Total: 100,00", lit "CUIT: 20-12345678-9",
   lit "Fecha de emisión: 01/01/2024", lit "Subtotal", lit "Importe total"]

/-- The specification's below-threshold example. -/
def ejemplo_recibo : List (List Char) :=
  [lit "recibo de pago", lit "cuit 20123456789"]

/-! ### Fragment-local matching, for the order-independence claim -/

/-- `pk` occurs inside some single (lower-cased) fragment of `l`. -/
def fragMatch (pk : List Char) (l : List (List Char)) : Bool :=
  l.any (fun f => hasSub pk (pyLower f))

/-- Some single (lower-cased) fragment of `l` contains a pattern match. -/
def fragSearch (ends : List Char → List (List Char))
    (l : List (List Char)) : Bool :=
  l.any (fun f => reSearch ends (pyLower f))

/-- Formalisation of "no phrase or pattern match spans a fragment
boundary": every phrase of the lexicon, and every one of the three
patterns, matches the joined corpus exactly when it matches inside some
single fragment. -/
def noSpan (l : List (List Char)) : Prop :=
  (∀ pk ∈ palabras_clave_obligatorias ++ palabras_clave_opcionales,
      hasSub pk (corpus l) = fragMatch pk l) ∧
  reSearch cuitEnds (corpus l) = fragSearch cuitEnds l ∧
  reSearch fechaEnds (corpus l) = fragSearch fechaEnds l ∧
  reSearch importeEnds (corpus l) = fragSearch importeEnds l

/-! ## Substring containment: `hasSub` decides `Occurs` -/

theorem leadsWith_iff (p t : List Char) :
    leadsWith p t = true ↔ ∃ v, p ++ v = t := by
  induction p generalizing t with
  | nil => simp [leadsWith]
  | cons a p ih =>
    cases t with
    | nil => simp [leadsWith]
    | cons b t =>
      simp only [leadsWith, Bool.and_eq_true, beq_iff_eq, ih]
      constructor
      · rintro ⟨rfl, v, rfl⟩
        exact ⟨v, rfl⟩
      · rintro ⟨v, h⟩
        rw [List.cons_append] at h
        injection h with h1 h2
        exact ⟨h1, v, h2⟩

theorem occurs_cons (p : List Char) (c : Char) (t : List Char) :
    Occurs p (c :: t) ↔ (∃ v, p ++ v = c :: t) ∨ Occurs p t := by
  constructor
  · rintro ⟨u, v, h⟩
    cases u with
    | nil => exact Or.inl ⟨v, by simpa using h⟩
    | cons a u =>
      simp only [List.cons_append] at h
      injection h with h1 h2
      exact Or.inr ⟨u, v, h2⟩
  · rintro (⟨v, h⟩ | ⟨u, v, h⟩)
    · exact ⟨[], v, by simpa using h⟩
    · exact ⟨c :: u, v, by simp [← h]⟩

theorem hasSub_iff (p t : List Char) : hasSub p t = true ↔ Occurs p t := by
  induction t with
  | nil =>
    rw [hasSub]
    simp only [Bool.or_false, leadsWith_iff]
    constructor
    · rintro ⟨v, h⟩
      exact ⟨[], v, by simpa using h⟩
    · rintro ⟨u, v, h⟩
      rcases List.append_eq_nil.mp h with ⟨h1, h2⟩
      rcases List.append_eq_nil.mp h1 with ⟨rfl, rfl⟩
      exact ⟨v, by simpa using h2⟩
  | cons c t ih =>
    rw [hasSub]
    simp only [Bool.or_eq_true, leadsWith_iff, ih, occurs_cons]

instance (p t : List Char) : Decidable (Occurs p t) :=
  decidable_of_iff _ (hasSub_iff p t)

theorem occurs_trans {p q t : List Char} (h1 : Occurs p q) (h2 : Occurs q t) :
    Occurs p t := by
  rcases h1 with ⟨u1, v1, rfl⟩
  rcases h2 with ⟨u2, v2, rfl⟩
  exact ⟨u2 ++ u1, v1 ++ v2, by simp⟩

/-! ## Claims C1-C5 -/

/-- C1.  `classify` returns `true` iff at least one of the six mandatory
phrases occurs as a substring of the corpus (the fragments joined with a
single space and lower-cased) and the score — one point per distinct
optional phrase present, plus 2 for a tax-ID pattern match, 1 for a date
pattern match, 1 for an amount pattern match, each at most once — is at
least 5. -/
theorem claim_C1_gate_and_threshold (l : List (List Char)) :
    es_factura_logic l = true ↔
      ((∃ pk ∈ palabras_clave_obligatorias, Occurs pk (corpus l)) ∧
        5 ≤ puntuacion (corpus l)) := by
  have hgate : obligatoria_presente (corpus l) = true ↔
      ∃ pk ∈ palabras_clave_obligatorias, Occurs pk (corpus l) := by
    simp [obligatoria_presente, List.any_eq_true, hasSub_iff]
  rw [← hgate]
  simp only [es_factura_logic]
  cases obligatoria_presente (corpus l) <;> simp

/-- C2.  If no mandatory phrase occurs as a substring of the corpus,
`classify` returns `false`, whatever the optional phrases and patterns
contribute. -/
theorem claim_C2_gate_blocks (l : List (List Char))
    (h : ∀ pk ∈ palabras_clave_obligatorias, ¬ Occurs pk (corpus l)) :
    es_factura_logic l = false := by
  have hgate : obligatoria_presente (corpus l) = false := by
    simp only [obligatoria_presente, List.any_eq_false]
    intro pk hpk
    simpa [hasSub_iff] using h pk hpk
  simp [es_factura_logic, hgate]

theorem claim_C2_witness :
    (∀ pk ∈ palabras_clave_obligatorias,
        ¬ Occurs pk (corpus [lit "subtotal importe total 20-12345678-9 01/01/2024 100,00"])) ∧
      es_factura_logic [lit "subtotal importe total 20-12345678-9 01/01/2024 100,00"] = false :=
  ⟨by decide, claim_C2_gate_blocks _ (by decide)⟩

/-- C3.  `classify` of the empty fragment list is `false` (and, being a
total Lean function, the embedding cannot raise). -/
theorem claim_C3_empty_false : es_factura_logic [] = false := by decide

/-- C4 (counterexample).  On the specification's positive example the
verdict is `true`, but the score is not 5 as the claim asserts. -/
theorem claim_C4_counterexample :
    ¬ (es_factura_logic ejemplo_positivo = true ∧
        puntuacion (corpus ejemplo_positivo) = 5) := by decide

/-- C4 (amended).  On the specification's positive example the verdict is
`true`, and the score is 9: five optional phrases match ("fecha de
emisión", "cuit", "subtotal", "importe total", "total"), and all three
patterns match (+2, +1, +1). -/
theorem claim_C4_positive_example :
    es_factura_logic ejemplo_positivo = true ∧
    puntuacion (corpus ejemplo_positivo) = 9 ∧
    palabras_clave_opcionales.countP
        (fun pk => hasSub pk (corpus ejemplo_positivo)) = 5 ∧
    reSearch cuitEnds (corpus ejemplo_positivo) = true ∧
    reSearch fechaEnds (corpus ejemplo_positivo) = true ∧
    reSearch importeEnds (corpus ejemplo_positivo) = true := by decide

/-- C5 (counterexample).  On the specification's receipt example the
verdict is indeed `false`, but the score is not 2 as the claim asserts. -/
theorem claim_C5_counterexample :
    ¬ (es_factura_logic ejemplo_recibo = false ∧
        puntuacion (corpus ejemplo_recibo) = 2) := by decide

/-- C5 (amended).  On the specification's receipt example the verdict is
`false`, and the score is exactly 3: the optional phrase "cuit" matches
(+1) and the tax-ID pattern matches (+2), while the date and amount
patterns do not. -/
theorem claim_C5_receipt_example :
    es_factura_logic ejemplo_recibo = false ∧
    puntuacion (corpus ejemplo_recibo) = 3 ∧
    palabras_clave_opcionales.countP
        (fun pk => hasSub pk (corpus ejemplo_recibo)) = 1 ∧
    hasSub (lit "cuit") (corpus ejemplo_recibo) = true ∧
    reSearch cuitEnds (corpus ejemplo_recibo) = true ∧
    reSearch fechaEnds (corpus ejemplo_recibo) = false ∧
    reSearch importeEnds (corpus ejemplo_recibo) = false := by decide

/-! ## Claim C8: content-type gate of the handler -/

/-- C8.  When the upload's declared media type is not `application/pdf`,
the handler answers the 400 client error with its descriptive detail, and
the outcome does not depend on the uploaded bytes at all — reading,
extraction and classification never influence it. -/
theorem claim_C8_content_type_gate (ct : List Char)
    (ext : Except (List Char) (List (List Char)))
    (h : ct ≠ lit "application/pdf") :
    analizar_pdf ct ext = HttpResult.error 400 detail_400 ∧
      ∀ ext', analizar_pdf ct ext = analizar_pdf ct ext' := by
  refine ⟨by simp [analizar_pdf, h], fun ext' => ?_⟩
  simp [analizar_pdf, h]

theorem claim_C8_witness :
    analizar_pdf (lit "text/plain") (Except.ok []) =
      HttpResult.error 400 detail_400 :=
  (claim_C8_content_type_gate (lit "text/plain") (Except.ok []) (by decide)).1

/-! ## Claim C10: the optional phrases overlap -/

theorem two_le_countP {α : Type} {p : α → Bool} {L : List α} (a b : α)
    (ha : a ∈ L) (hb : b ∈ L) (hab : a ≠ b)
    (hpa : p a = true) (hpb : p b = true) : 2 ≤ L.countP p := by
  induction L with
  | nil => cases ha
  | cons x L ih =>
    rw [List.countP_cons]
    rcases List.mem_cons.mp ha with rfl | ha'
    · have hb' : b ∈ L := by
        rcases List.mem_cons.mp hb with rfl | hb'
        · exact absurd rfl hab
        · exact hb'
      have hpos : 0 < L.countP p := List.countP_pos_iff.mpr ⟨b, hb', hpb⟩
      simp only [hpa, if_true]
      omega
    · rcases List.mem_cons.mp hb with rfl | hb'
      · have hpos : 0 < L.countP p := List.countP_pos_iff.mpr ⟨a, ha', hpa⟩
        simp only [hpb, if_true]
        omega
      · have := ih ha' hb'
        omega

/-- C10.  The optional phrases are not substring-independent: a corpus
containing "subtotal" (or "importe total") also contains "total", so the
optional-phrase count is at least 2; and a corpus containing "cae n°"
also contains "n°". -/
theorem claim_C10_phrase_overlap (l : List (List Char)) :
    (Occurs (lit "subtotal") (corpus l) →
        2 ≤ palabras_clave_opcionales.countP (fun pk => hasSub pk (corpus l))) ∧
    (Occurs (lit "importe total") (corpus l) →
        2 ≤ palabras_clave_opcionales.countP (fun pk => hasSub pk (corpus l))) ∧
    (Occurs (lit "cae n°") (corpus l) → Occurs (lit "n°") (corpus l)) := by
  refine ⟨fun h => ?_, fun h => ?_, fun h => occurs_trans (by decide) h⟩
  · exact two_le_countP (lit "subtotal") (lit "total")
      (by decide) (by decide) (by decide)
      ((hasSub_iff _ _).mpr h)
      ((hasSub_iff _ _).mpr (occurs_trans (by decide) h))
  · exact two_le_countP (lit "importe total") (lit "total")
      (by decide) (by decide) (by decide)
      ((hasSub_iff _ _).mpr h)
      ((hasSub_iff _ _).mpr (occurs_trans (by decide) h))

theorem claim_C10_witness :
    2 ≤ palabras_clave_opcionales.countP
        (fun pk => hasSub pk (corpus [lit "subtotal"])) ∧
    Occurs (lit "n°") (corpus [lit "cae n°"]) :=
  ⟨(claim_C10_phrase_overlap [lit "subtotal"]).1 (by decide),
   (claim_C10_phrase_overlap [lit "cae n°"]).2.2 (by decide)⟩

/-! ## Claim C6: order independence -/

theorem any_perm {α : Type} {l l' : List α} (hp : List.Perm l l') (f : α → Bool) :
    l.any f = l'.any f := by
  rw [Bool.eq_iff_iff]
  simp only [List.any_eq_true]
  exact ⟨fun ⟨x, hx, hfx⟩ => ⟨x, hp.mem_iff.mp hx, hfx⟩,
         fun ⟨x, hx, hfx⟩ => ⟨x, hp.mem_iff.mpr hx, hfx⟩⟩

/-- The classifier as one boolean formula: gate and threshold. -/
theorem es_factura_logic_eq (l : List (List Char)) :
    es_factura_logic l =
      (obligatoria_presente (corpus l) && decide (5 ≤ puntuacion (corpus l))) := by
  simp only [es_factura_logic]
  cases obligatoria_presente (corpus l) <;> simp

/-- C6.  Permuting the fragment list does not change the verdict, under
the claim's assumption that no phrase or pattern match spans a fragment
boundary in either ordering (`noSpan`): presence checks then reduce to
per-fragment checks, which are order-agnostic. -/
theorem claim_C6_order_independence (l l' : List (List Char))
    (hp : List.Perm l l') (h : noSpan l) (h' : noSpan l') :
    es_factura_logic l = es_factura_logic l' := by
  obtain ⟨hph, hc, hf, hi⟩ := h
  obtain ⟨hph', hc', hf', hi'⟩ := h'
  have hsub : ∀ pk ∈ palabras_clave_obligatorias ++ palabras_clave_opcionales,
      hasSub pk (corpus l) = hasSub pk (corpus l') := by
    intro pk hpk
    rw [hph pk hpk, hph' pk hpk]
    exact any_perm hp _
  have hb1 : reSearch cuitEnds (corpus l) = reSearch cuitEnds (corpus l') := by
    rw [hc, hc']; exact any_perm hp _
  have hb2 : reSearch fechaEnds (corpus l) = reSearch fechaEnds (corpus l') := by
    rw [hf, hf']; exact any_perm hp _
  have hb3 : reSearch importeEnds (corpus l) = reSearch importeEnds (corpus l') := by
    rw [hi, hi']; exact any_perm hp _
  have hgate : obligatoria_presente (corpus l) = obligatoria_presente (corpus l') := by
    unfold obligatoria_presente
    rw [Bool.eq_iff_iff]
    simp only [List.any_eq_true]
    constructor <;> rintro ⟨pk, hpk, hs⟩
    · exact ⟨pk, hpk, by rw [← hsub pk (List.mem_append_left _ hpk)]; exact hs⟩
    · exact ⟨pk, hpk, by rw [hsub pk (List.mem_append_left _ hpk)]; exact hs⟩
  have hcount : palabras_clave_opcionales.countP (fun pk => hasSub pk (corpus l))
      = palabras_clave_opcionales.countP (fun pk => hasSub pk (corpus l')) := by
    apply List.countP_congr
    intro pk hpk
    rw [hsub pk (List.mem_append_right _ hpk)]
  have hpunt : puntuacion (corpus l) = puntuacion (corpus l') := by
    unfold puntuacion
    rw [hcount, hb1, hb2, hb3]
  rw [es_factura_logic_eq, es_factura_logic_eq, hgate, hpunt]

theorem claim_C6_witness :
    es_factura_logic
        [lit "factura", lit "total 1,00 01/01/2024 20-12345678-9 subtotal cuit"] =
      es_factura_logic
        [lit "total 1,00 01/01/2024 20-12345678-9 subtotal cuit", lit "factura"] :=
  claim_C6_order_independence _ _
    (List.Perm.swap (lit "total 1,00 01/01/2024 20-12345678-9 subtotal cuit")
      (lit "factura") [])
    (by unfold noSpan; decide) (by unfold noSpan; decide)

/-! ## Claim C7: 10- and 12-digit numerals never match the tax-ID pattern -/

theorem digit_not_sep {c : Char} (h : digit c = true) : isSepChar c = false := by
  simp only [digit, Bool.and_eq_true, decide_eq_true_eq] at h
  obtain ⟨h1, h2⟩ := h
  simp only [isSepChar, isSpaceChar, Bool.or_eq_false_iff, beq_eq_false_iff_ne, ne_eq]
  repeat' apply And.intro
  all_goals (rintro rfl; revert h1 h2; decide)

theorem digit_word {c : Char} (h : digit c = true) : isWordChar c = true := by
  simp [isWordChar, h]

theorem takeDigits_of_all_digits :
    ∀ (n : Nat) (t : List Char), (∀ c ∈ t, digit c = true) →
      takeDigits n t = if n ≤ t.length then some (t.drop n) else none := by
  intro n
  induction n with
  | zero => intro t _; simp [takeDigits]
  | succ n ih =>
    intro t h
    cases t with
    | nil => simp [takeDigits]
    | cons c rest =>
      rw [takeDigits, if_pos (h c (List.mem_cons_self c rest))]
      rw [ih rest (fun x hx => h x (List.mem_cons_of_mem _ hx))]
      by_cases hn : n ≤ rest.length
      · rw [if_pos hn, if_pos (by simp; omega)]
        simp
      · rw [if_neg hn, if_neg (by simp; omega)]

theorem optSep_of_digits {u : List Char} (h : ∀ c ∈ u, digit c = true) :
    optSep u = [u] := by
  cases u with
  | nil => rfl
  | cons c rest =>
    have hs := digit_not_sep (h c (List.mem_cons_self c rest))
    simp [optSep, hs]

theorem cuitEnds_of_digits {t : List Char} (h : ∀ c ∈ t, digit c = true) :
    cuitEnds t = if 11 ≤ t.length then [t.drop 11] else [] := by
  have hd2 : ∀ c ∈ t.drop 2, digit c = true :=
    fun c hc => h c (List.drop_subset _ _ hc)
  have hd10 : ∀ c ∈ t.drop 10, digit c = true :=
    fun c hc => h c (List.drop_subset _ _ hc)
  by_cases h2 : 2 ≤ t.length
  case neg =>
    have e2 : takeDigits 2 t = none := by
      rw [takeDigits_of_all_digits 2 t h, if_neg h2]
    rw [if_neg (by omega)]
    simp only [cuitEnds, e2]
  case pos =>
  have e2 : takeDigits 2 t = some (t.drop 2) := by
    rw [takeDigits_of_all_digits 2 t h, if_pos h2]
  by_cases h10 : 10 ≤ t.length
  case neg =>
    have e8 : takeDigits 8 (t.drop 2) = none := by
      rw [takeDigits_of_all_digits 8 _ hd2, if_neg (by simp; omega)]
    rw [if_neg (by omega)]
    simp only [cuitEnds, e2, optSep_of_digits hd2, List.flatMap_cons,
      List.flatMap_nil, List.append_nil, e8]
  case pos =>
  have e8 : takeDigits 8 (t.drop 2) = some (t.drop 10) := by
    rw [takeDigits_of_all_digits 8 _ hd2, if_pos (by simp; omega)]
    simp [List.drop_drop]
  by_cases h11 : 11 ≤ t.length
  case pos =>
    have e1 : takeDigits 1 (t.drop 10) = some (t.drop 11) := by
      rw [takeDigits_of_all_digits 1 _ hd10, if_pos (by simp; omega)]
      simp [List.drop_drop]
    rw [if_pos h11]
    simp only [cuitEnds, e2, optSep_of_digits hd2, List.flatMap_cons,
      List.flatMap_nil, List.append_nil, e8, optSep_of_digits hd10, e1]
  case neg =>
    have e1 : takeDigits 1 (t.drop 10) = none := by
      rw [takeDigits_of_all_digits 1 _ hd10, if_neg (by simp; omega)]
    rw [if_neg h11]
    simp only [cuitEnds, e2, optSep_of_digits hd2, List.flatMap_cons,
      List.flatMap_nil, List.append_nil, e8, optSep_of_digits hd10, e1]

theorem searchFrom_word_of_digits (ends : List Char → List (List Char)) :
    ∀ t : List Char, (∀ c ∈ t, digit c = true) →
      searchFrom ends true t = false := by
  intro t
  induction t with
  | nil => intro _; rfl
  | cons c rest ih =>
    intro h
    rw [searchFrom, digit_word (h c (List.mem_cons_self c rest))]
    simp only [Bool.not_true, Bool.false_and, Bool.false_or]
    exact ih (fun x hx => h x (List.mem_cons_of_mem _ hx))

/-- C7.  A bare numeral of exactly 10 or exactly 12 digits never matches
the tax-ID pattern, so the 2-point bonus is not awarded for such a
corpus. -/
theorem claim_C7_digit_count_rejected (t : List Char)
    (hd : ∀ c ∈ t, digit c = true) (hl : t.length = 10 ∨ t.length = 12) :
    reSearch cuitEnds t = false := by
  cases t with
  | nil => rcases hl with h | h <;> simp at h
  | cons c rest =>
    have hword : isWordChar c = true := digit_word (hd c (List.mem_cons_self c rest))
    have hm : matchHere cuitEnds (c :: rest) = false := by
      rw [matchHere, cuitEnds_of_digits hd]
      rcases hl with hl | hl
      · rw [if_neg (by omega)]
        rfl
      · rw [if_pos (by omega)]
        have hlen : ((c :: rest).drop 11).length = 1 := by
          rw [List.length_drop, hl]
        obtain ⟨d, hd1⟩ := List.length_eq_one.mp hlen
        have hdd : digit d = true :=
          hd d (List.drop_subset _ _ (by rw [hd1]; exact List.mem_cons_self d []))
        rw [hd1]
        simp [endBoundary, digit_word hdd]
    rw [reSearch, searchFrom, hm, hword]
    simp only [Bool.and_false, Bool.false_or]
    exact searchFrom_word_of_digits _ rest (fun x hx => hd x (List.mem_cons_of_mem _ hx))

theorem claim_C7_witness :
    reSearch cuitEnds (lit "0123456789") = false ∧
      reSearch cuitEnds (lit "012345678901") = false :=
  ⟨claim_C7_digit_count_rejected _ (by decide) (Or.inl (by decide)),
   claim_C7_digit_count_rejected _ (by decide) (Or.inr (by decide))⟩

/-! ## Claim C9: appending fragments never flips the verdict to false

Every substring occurrence survives appending text, and every pattern
match survives appending text that starts with a non-word character (the
separating space), because the matchers only consume a prefix and the
trailing boundary check sees either the same character as before or the
appended space. -/

theorem occurs_append {p t : List Char} (s : List Char) (h : Occurs p t) :
    Occurs p (t ++ s) := by
  rcases h with ⟨u, v, rfl⟩
  exact ⟨u, v ++ s, by simp⟩

theorem hasSub_append {p t : List Char} (s : List Char) (h : hasSub p t = true) :
    hasSub p (t ++ s) = true :=
  (hasSub_iff _ _).mpr (occurs_append s ((hasSub_iff _ _).mp h))

theorem takeDigits_append {n : Nat} {t r : List Char} (s : List Char)
    (h : takeDigits n t = some r) : takeDigits n (t ++ s) = some (r ++ s) := by
  induction n generalizing t with
  | zero =>
    rw [takeDigits] at h
    injection h with h
    subst h
    rfl
  | succ n ih =>
    cases t with
    | nil => rw [takeDigits] at h; cases h
    | cons c rest =>
      rw [takeDigits] at h
      rw [List.cons_append, takeDigits]
      by_cases hc : digit c = true
      · rw [if_pos hc] at h ⊢
        exact ih h
      · rw [if_neg hc] at h; cases h

theorem mem_optSep_append {t r : List Char} (s : List Char) (h : r ∈ optSep t) :
    r ++ s ∈ optSep (t ++ s) := by
  cases t with
  | nil =>
    simp [optSep] at h
    subst h
    simp only [List.nil_append]
    simp [optSep]
  | cons c rest =>
    rw [optSep.eq_def] at h
    rcases List.mem_cons.mp h with rfl | h2
    · simp only [List.cons_append]
      simp [optSep]
    · by_cases hc : isSepChar c = true
      · simp [hc] at h2
        subst h2
        simp only [List.cons_append]
        simp [optSep, hc]
      · simp [hc] at h2

theorem self_mem_starDotGroups (l : List Char) : l ∈ starDotGroups l := by
  rcases l with _ | ⟨c, _ | ⟨d1, _ | ⟨d2, _ | ⟨d3, rest⟩⟩⟩⟩ <;>
    simp [starDotGroups]

theorem mem_starDotGroups_append (s : List Char) :
    ∀ t r : List Char, r ∈ starDotGroups t → r ++ s ∈ starDotGroups (t ++ s) := by
  have key : ∀ (n : Nat) (t r : List Char), t.length ≤ n → r ∈ starDotGroups t →
      r ++ s ∈ starDotGroups (t ++ s) := by
    intro n
    induction n with
    | zero =>
      intro t r hlen h
      have ht : t = [] := List.length_eq_zero.mp (Nat.le_zero.mp hlen)
      subst ht
      simp [starDotGroups] at h
      subst h
      simpa using self_mem_starDotGroups s
    | succ n ih =>
      intro t r hlen h
      rcases t with _ | ⟨c, _ | ⟨d1, _ | ⟨d2, _ | ⟨d3, rest⟩⟩⟩⟩
      · simp [starDotGroups] at h
        subst h
        simpa using self_mem_starDotGroups s
      · simp [starDotGroups] at h
        subst h
        exact self_mem_starDotGroups _
      · simp [starDotGroups] at h
        subst h
        exact self_mem_starDotGroups _
      · simp [starDotGroups] at h
        subst h
        exact self_mem_starDotGroups _
      · rw [starDotGroups] at h
        rcases List.mem_cons.mp h with rfl | h2
        · exact self_mem_starDotGroups _
        · by_cases hc : (c == '.' && digit d1 && digit d2 && digit d3) = true
          · rw [if_pos hc] at h2
            have hr := ih rest r (by simp at hlen; omega) h2
            simp only [List.cons_append]
            rw [starDotGroups]
            exact List.mem_cons_of_mem _ (by rw [if_pos hc]; exact hr)
          · rw [if_neg hc] at h2; cases h2
  intro t r h
  exact key t.length t r (Nat.le_refl _) h

theorem mem_plusDigits_append (s : List Char) :
    ∀ t r : List Char, r ∈ plusDigits t → r ++ s ∈ plusDigits (t ++ s) := by
  intro t
  induction t with
  | nil => intro r h; simp [plusDigits] at h
  | cons c rest ih =>
    intro r h
    rw [plusDigits] at h
    by_cases hc : digit c = true
    · rw [if_pos hc] at h
      simp only [List.cons_append]
      rw [plusDigits, if_pos hc]
      rcases List.mem_cons.mp h with rfl | h2
      · exact List.mem_cons_self _ _
      · exact List.mem_cons_of_mem _ (ih r h2)
    · rw [if_neg hc] at h; cases h

theorem mem_digitRange_append {lo hi : Nat} {t r : List Char} (s : List Char)
    (h : r ∈ digitRange lo hi t) : r ++ s ∈ digitRange lo hi (t ++ s) := by
  simp only [digitRange, List.mem_filterMap] at h ⊢
  obtain ⟨k, hk, hkd⟩ := h
  exact ⟨k, hk, takeDigits_append s hkd⟩

theorem mem_slashDash_append {t r : List Char} (s : List Char)
    (h : r ∈ slashDash t) : r ++ s ∈ slashDash (t ++ s) := by
  cases t with
  | nil => simp [slashDash] at h
  | cons c rest =>
    rw [slashDash] at h
    by_cases hc : (c == '/' || c == '-') = true
    · rw [if_pos hc] at h
      simp at h
      subst h
      simp only [List.cons_append]
      rw [slashDash, if_pos hc]
      simp
    · rw [if_neg hc] at h; cases h

theorem mem_commaDot_append {t r : List Char} (s : List Char)
    (h : r ∈ commaDot t) : r ++ s ∈ commaDot (t ++ s) := by
  cases t with
  | nil => simp [commaDot] at h
  | cons c rest =>
    rw [commaDot] at h
    by_cases hc : (c == ',' || c == '.') = true
    · rw [if_pos hc] at h
      simp at h
      subst h
      simp only [List.cons_append]
      rw [commaDot, if_pos hc]
      simp
    · rw [if_neg hc] at h; cases h

theorem mem_cuitEnds_append {t r : List Char} (s : List Char)
    (h : r ∈ cuitEnds t) : r ++ s ∈ cuitEnds (t ++ s) := by
  unfold cuitEnds at h ⊢
  cases h2 : takeDigits 2 t with
  | none => simp [h2] at h
  | some r1 =>
    rw [takeDigits_append s h2]
    simp only [h2] at h
    simp only [List.mem_flatMap] at h ⊢
    obtain ⟨r2, hr2, h⟩ := h
    refine ⟨r2 ++ s, mem_optSep_append s hr2, ?_⟩
    cases h8 : takeDigits 8 r2 with
    | none => simp [h8] at h
    | some r3 =>
      rw [takeDigits_append s h8]
      simp only [h8] at h
      simp only [List.mem_flatMap] at h ⊢
      obtain ⟨r4, hr4, h⟩ := h
      refine ⟨r4 ++ s, mem_optSep_append s hr4, ?_⟩
      cases h1 : takeDigits 1 r4 with
      | none => simp [h1] at h
      | some r5 =>
        rw [takeDigits_append s h1]
        simp only [h1] at h
        simp at h
        subst h
        simp

theorem mem_fechaEnds_append {t r : List Char} (s : List Char)
    (h : r ∈ fechaEnds t) : r ++ s ∈ fechaEnds (t ++ s) := by
  unfold fechaEnds at h ⊢
  rcases List.mem_flatMap.mp h with ⟨x1, hx1, hr⟩
  rcases List.mem_flatMap.mp hx1 with ⟨x2, hx2, hx1m⟩
  rcases List.mem_flatMap.mp hx2 with ⟨x3, hx3, hx2m⟩
  rcases List.mem_flatMap.mp hx3 with ⟨x4, hx4, hx3m⟩
  exact List.mem_flatMap.mpr ⟨x1 ++ s,
    List.mem_flatMap.mpr ⟨x2 ++ s,
      List.mem_flatMap.mpr ⟨x3 ++ s,
        List.mem_flatMap.mpr ⟨x4 ++ s, mem_digitRange_append s hx4,
          mem_slashDash_append s hx3m⟩,
        mem_digitRange_append s hx2m⟩,
      mem_slashDash_append s hx1m⟩,
    mem_digitRange_append s hr⟩

theorem mem_importeEnds_append {t r : List Char} (s : List Char)
    (h : r ∈ importeEnds t) : r ++ s ∈ importeEnds (t ++ s) := by
  unfold importeEnds at h ⊢
  rcases List.mem_filterMap.mp h with ⟨x1, hx1, ht2⟩
  rcases List.mem_flatMap.mp hx1 with ⟨x2, hx2, hx1m⟩
  rcases List.mem_append.mp hx2 with h2 | h2
  · rcases List.mem_flatMap.mp h2 with ⟨x3, hx3, h2m⟩
    exact List.mem_filterMap.mpr ⟨x1 ++ s,
      List.mem_flatMap.mpr ⟨x2 ++ s,
        List.mem_append.mpr (Or.inl (List.mem_flatMap.mpr
          ⟨x3 ++ s, mem_digitRange_append s hx3,
           mem_starDotGroups_append s x3 x2 h2m⟩)),
        mem_commaDot_append s hx1m⟩,
      takeDigits_append s ht2⟩
  · exact List.mem_filterMap.mpr ⟨x1 ++ s,
      List.mem_flatMap.mpr ⟨x2 ++ s,
        List.mem_append.mpr (Or.inr (mem_plusDigits_append s t x2 h2)),
        mem_commaDot_append s hx1m⟩,
      takeDigits_append s ht2⟩

theorem endBoundary_append {r s : List Char}
    (hs : ∀ c cs, s = c :: cs → isWordChar c = false)
    (h : endBoundary r = true) : endBoundary (r ++ s) = true := by
  cases r with
  | nil =>
    cases s with
    | nil => rfl
    | cons c cs =>
      simp only [List.nil_append, endBoundary]
      rw [hs c cs rfl]
      rfl
  | cons c rr => simpa [endBoundary] using h

theorem searchFrom_append {ends : List Char → List (List Char)}
    (hmono : ∀ (t r s : List Char), r ∈ ends t → r ++ s ∈ ends (t ++ s))
    {s : List Char} (hs : ∀ c cs, s = c :: cs → isWordChar c = false) :
    ∀ (t : List Char) (pw : Bool), searchFrom ends pw t = true →
      searchFrom ends pw (t ++ s) = true := by
  intro t
  induction t with
  | nil =>
    intro pw h
    rw [searchFrom] at h
    cases h
  | cons c rest ih =>
    intro pw h
    rw [searchFrom] at h
    rw [List.cons_append, searchFrom]
    rw [Bool.or_eq_true] at h ⊢
    rcases h with h1 | h2
    · left
      rw [Bool.and_eq_true] at h1 ⊢
      obtain ⟨hpw, hm⟩ := h1
      refine ⟨hpw, ?_⟩
      rw [matchHere] at hm ⊢
      rcases List.any_eq_true.mp hm with ⟨rr, hrr, hb⟩
      apply List.any_eq_true.mpr
      refine ⟨rr ++ s, ?_, endBoundary_append hs hb⟩
      have := hmono (c :: rest) rr s hrr
      simpa using this
    · exact Or.inr (ih _ h2)

theorem reSearch_append {ends : List Char → List (List Char)}
    (hmono : ∀ (t r s : List Char), r ∈ ends t → r ++ s ∈ ends (t ++ s))
    {s : List Char} (hs : ∀ c cs, s = c :: cs → isWordChar c = false)
    {t : List Char} (h : reSearch ends t = true) :
    reSearch ends (t ++ s) = true :=
  searchFrom_append hmono hs t false h

theorem joinSpace_append :
    ∀ l l' : List (List Char), l ≠ [] → l' ≠ [] →
      joinSpace (l ++ l') = joinSpace l ++ ' ' :: joinSpace l' := by
  intro l
  induction l with
  | nil => intro l' h; exact absurd rfl h
  | cons x xs ih =>
    intro l' _ hl'
    cases xs with
    | nil =>
      cases l' with
      | nil => exact absurd rfl hl'
      | cons y ys => rfl
    | cons z zs =>
      have hz := ih l' (by simp) hl'
      show x ++ ' ' :: joinSpace ((z :: zs) ++ l') =
        (x ++ ' ' :: joinSpace (z :: zs)) ++ ' ' :: joinSpace l'
      rw [hz]
      simp

theorem corpus_append (l l' : List (List Char)) (hl : l ≠ []) (hl' : l' ≠ []) :
    corpus (l ++ l') = corpus l ++ ' ' :: corpus l' := by
  unfold corpus pyLower
  rw [joinSpace_append l l' hl hl']
  have hsp : pyToLower ' ' = ' ' := by decide
  rw [List.map_append, List.map_cons, hsp]

theorem ite_bonus_mono (b1 b2 : Bool) (k : Nat) (h : b1 = true → b2 = true) :
    (if b1 then k else 0) ≤ (if b2 then k else 0) := by
  cases b1
  · simp
  · rw [h rfl]

theorem puntuacion_append_le (t : List Char) {s : List Char}
    (hs : ∀ c cs, s = c :: cs → isWordChar c = false) :
    puntuacion t ≤ puntuacion (t ++ s) := by
  unfold puntuacion
  have h1 : palabras_clave_opcionales.countP (fun pk => hasSub pk t) ≤
      palabras_clave_opcionales.countP (fun pk => hasSub pk (t ++ s)) :=
    List.countP_mono_left (fun pk _ hp => hasSub_append s hp)
  have h2 := ite_bonus_mono (reSearch cuitEnds t)
    (reSearch cuitEnds (t ++ s)) 2
    (fun hh => reSearch_append (fun _ _ s h => mem_cuitEnds_append s h) hs hh)
  have h3 := ite_bonus_mono (reSearch fechaEnds t)
    (reSearch fechaEnds (t ++ s)) 1
    (fun hh => reSearch_append (fun _ _ s h => mem_fechaEnds_append s h) hs hh)
  have h4 := ite_bonus_mono (reSearch importeEnds t)
    (reSearch importeEnds (t ++ s)) 1
    (fun hh => reSearch_append (fun _ _ s h => mem_importeEnds_append s h) hs hh)
  omega

theorem obligatoria_append (t s : List Char)
    (h : obligatoria_presente t = true) :
    obligatoria_presente (t ++ s) = true := by
  rw [obligatoria_presente] at h ⊢
  rcases List.any_eq_true.mp h with ⟨pk, hpk, hp⟩
  exact List.any_eq_true.mpr ⟨pk, hpk, hasSub_append s hp⟩

/-- C9.  Appending fragments never flips the verdict from `true` to
`false`: every phrase occurrence and every word-boundary-delimited
pattern match in the corpus of `l` is preserved in the corpus of
`l ++ l'`, the appended text being separated by a space. -/
theorem claim_C9_append_preserves_true (l l' : List (List Char))
    (h : es_factura_logic l = true) : es_factura_logic (l ++ l') = true := by
  rcases eq_or_ne l' [] with rfl | hl'
  · simpa using h
  rcases eq_or_ne l [] with rfl | hl
  · exact absurd h (by decide)
  have hc := corpus_append l l' hl hl'
  have hs : ∀ c cs, (' ' :: corpus l') = c :: cs → isWordChar c = false := by
    intro c cs hcs
    injection hcs with h1 _
    subst h1
    decide
  rw [es_factura_logic_eq] at h ⊢
  rw [Bool.and_eq_true] at h ⊢
  obtain ⟨hg, h5⟩ := h
  refine ⟨?_, ?_⟩
  · rw [hc]
    exact obligatoria_append _ _ hg
  · rw [hc]
    rw [decide_eq_true_eq] at h5 ⊢
    have := puntuacion_append_le (corpus l) hs
    omega

theorem claim_C9_witness :
    es_factura_logic [lit "factura subtotal importe total cuit 20-12345678-9"] = true ∧
      es_factura_logic ([lit "factura subtotal importe total cuit 20-12345678-9"]
        ++ [lit "x"]) = true :=
  ⟨by decide, claim_C9_append_preserves_true _ [lit "x"] (by decide)⟩

end FacturaDetector
